import Mathlib

/-!
Verification development for the consensus-sequence core of the
dna-sculpture repository (`dna.py`).

The Python source is shallowly embedded as executable Lean definitions:
files are `List Char` (byte strings), lazy generators become lists, and a
run that raises an uncaught Python exception is modelled by a `false`
"completed" flag (paired with the prefix of loci emitted before the
exception) or by an `Option` result.  Machine integers do not matter here
(Python ints are unbounded), so `Nat` is used for positions, offsets and
quality scores; the source stores quality as a float but only ever
compares qualities, so `Nat` qualities are used with that caveat noted at
`Variant.qual`.
-/

namespace Dna

/-- Base enumeration from `class Base(EnumNameOnly)` in dna.py
(N = any, X = missing, the rest are IUPAC symbols). -/
inductive Base
  | N
  | A
  | C
  | T
  | G
  | X
  | R
  | Y
  | K
  | M
  | S
  | W
  | B
  | D
  | H
  | V
  deriving DecidableEq

/-- Embedding of the `base_to_enum` dict: the valid fasta/VCF characters
and the Base they decode to.  Note the dict has no entry for `X` or for
lowercase letters; every other character maps to `none` (a Python
`KeyError` on lookup, or non-membership for `valid_bases`). -/
def base_to_enum (c : Char) : Option Base :=
  match c with
  | 'N' => some Base.N
  | 'A' => some Base.A
  | 'C' => some Base.C
  | 'T' => some Base.T
  | 'G' => some Base.G
  | 'R' => some Base.R
  | 'Y' => some Base.Y
  | 'K' => some Base.K
  | 'M' => some Base.M
  | 'S' => some Base.S
  | 'W' => some Base.W
  | 'B' => some Base.B
  | 'D' => some Base.D
  | 'H' => some Base.H
  | 'V' => some Base.V
  | _ => none

/-- RefStatus from `class RefStatus(EnumNameOnly)`. -/
inductive RefStatus
  | hom_ref
  | het_mix
  | hom_alt
  | het_alt
  deriving DecidableEq

/-- VariantType from `class VariantType(EnumNameOnly)`. -/
inductive VariantType
  | SNP
  | INS
  | DEL
  | OTHER
  deriving DecidableEq

/-- Embedding of the `gt_to_ref_status` dict.  Python genotypes are
tuples of ints of any length (from splitting the genotype field on `/`),
modelled as `List Nat`; a key outside the dict is a `KeyError`, modelled
as `none`. -/
def gt_to_ref_status (gt : List Nat) : Option RefStatus :=
  match gt with
  | [0, 0] => some RefStatus.hom_ref
  | [0, 1] => some RefStatus.het_mix
  | [1, 1] => some RefStatus.hom_alt
  | [1, 2] => some RefStatus.het_alt
  | [2, 2] => some RefStatus.hom_alt
  | [0] => some RefStatus.hom_ref
  | [1] => some RefStatus.hom_alt
  | _ => none

/-- Embedding of the `Variant` NamedTuple.  `qual` is a float in the
source but is only ever compared, never computed with, so it is modelled
as `Nat`.  The genotype tuple is a `List Nat`; strings are `List Char`. -/
structure Variant where
  contig : List Char
  pos : Nat
  vtype : VariantType
  ref : List Base
  alts : List (List Base)
  qual : Nat
  filter : List Char
  info : List Char
  gt : List Nat
  pl : List Char
  deriving DecidableEq

/-- Embedding of the `Locus` NamedTuple. -/
structure Locus where
  contig : List Char
  pos : Nat
  bases : Base × Base
  ref_status : RefStatus
  deriving DecidableEq

/-- Embedding of the `FaiLine` namedtuple (one .fai index row). -/
structure FaiLine where
  contig : List Char
  len : Nat
  start : Nat
  bapl : Nat
  bypl : Nat
  deriving DecidableEq

/-- The characters Python's `str.strip()` removes (default whitespace;
only the ASCII ones can occur in these files). -/
def isPySpace (c : Char) : Bool :=
  c = ' ' || c = '\t' || c = '\n' || c = '\r' || c = Char.ofNat 11 || c = Char.ofNat 12

/-- Python `line.strip()` on a byte string. -/
def pstrip (l : List Char) : List Char :=
  ((l.dropWhile isPySpace).reverse.dropWhile isPySpace).reverse

/-- Python `s.split(sep)` for a one-character separator: always returns at
least one (possibly empty) part. -/
def splitOnChar (sep : Char) : List Char → List (List Char)
  | [] => [[]]
  | c :: cs =>
    match splitOnChar sep cs with
    | [] => [[c]]
    | h :: t => if c = sep then [] :: h :: t else (c :: h) :: t

/-- Python `line.startswith(p)` on byte strings. -/
def startsWithChars : List Char → List Char → Bool
  | [], _ => true
  | _ :: _, [] => false
  | a :: xs, b :: ys => a = b && startsWithChars xs ys

/-- Python `int(s)` restricted to the digit strings that occur in these
files (the source would also accept signs and surrounding whitespace;
none of the claims depend on that). `none` models a `ValueError`. -/
def parseNatChars (l : List Char) : Option Nat :=
  match l with
  | [] => none
  | _ =>
    l.foldl
      (fun acc c => do
        let a ← acc
        if '0' ≤ c ∧ c ≤ '9' then pure (a * 10 + (c.toNat - '0'.toNat)) else none)
      (some 0)

/-- Decoding of an allele column: `[base_to_enum[c] for c in cols[k]]`;
`none` models the `KeyError` on an undecodable character. -/
def decodeBases (l : List Char) : Option (List Base) :=
  l.mapM base_to_enum

/-- Structural-type derivation from `_parse_vcf_line` (lines 208-215 of
dna.py). -/
def classifyVariant (ref : List Base) (alts : List (List Base)) : VariantType :=
  if ref.length = 1 ∧ ∀ a ∈ alts, a.length = 1 then VariantType.SNP
  else if ref.length = 1 ∧ ∀ a ∈ alts, 1 < a.length then VariantType.INS
  else if 1 < ref.length ∧ ∀ a ∈ alts, a.length = 1 then VariantType.DEL
  else VariantType.OTHER

/-- Outcome of `_parse_vcf_line` on one line: `notContig` is the explicit
`return None` (line does not start with the contig name); `malformed`
models an uncaught exception while parsing (IndexError / KeyError /
ValueError), which in Python would abort the enclosing scan. -/
inductive ParseRes
  | notContig
  | malformed
  | ok (v : Variant)
  deriving DecidableEq

/-- Field extraction of `_parse_vcf_line` after the contig check:
`cols = line.strip().split("\t")`, then positional fields.  Any missing
column or undecodable field is `none` (an uncaught Python exception). -/
def parseFields (cols : List (List Char)) : Option Variant :=
  Option.bind cols[1]? fun c1 =>
  Option.bind (parseNatChars c1) fun pos =>
  Option.bind cols[3]? fun c3 =>
  Option.bind (decodeBases c3) fun ref =>
  Option.bind cols[4]? fun c4 =>
  Option.bind ((splitOnChar ',' c4).mapM decodeBases) fun alts =>
  Option.bind cols[5]? fun c5 =>
  Option.bind (parseNatChars c5) fun qual =>
  Option.bind cols[6]? fun c6 =>
  Option.bind cols[7]? fun c7 =>
  Option.bind cols.getLast? fun lastCol =>
  match splitOnChar ':' lastCol with
  | [gts, pl] =>
    Option.bind ((splitOnChar '/' gts).mapM parseNatChars) fun gt =>
    some (Variant.mk (cols.headD []) pos (classifyVariant ref alts) ref alts qual c6 c7 gt pl)
  | _ => none

/-- Embedding of `VCFFile._parse_vcf_line`. -/
def parseVcfLine (contig line : List Char) : ParseRes :=
  if startsWithChars contig line then
    match parseFields (splitOnChar '\t' (pstrip line)) with
    | some v => ParseRes.ok v
    | none => ParseRes.malformed
  else ParseRes.notContig

/-- The string constant `"PASS"` as a byte string. -/
def PASS : List Char := "PASS".toList

/-- Embedding of `VCFFile._iterate_vcf`: scan the remaining lines of the
file, skipping non-contig lines and (when `filterStatus`) non-PASS
records.  Result: the yielded records, paired with `true` if the scan
reached end of file and `false` if a line raised while parsing. -/
def iterateVcf (contig : List Char) (filterStatus : Bool) : List (List Char) → List Variant × Bool
  | [] => ([], true)
  | line :: rest =>
    match parseVcfLine contig line with
    | ParseRes.notContig => iterateVcf contig filterStatus rest
    | ParseRes.malformed => ([], false)
    | ParseRes.ok v =>
      if filterStatus ∧ v.filter ≠ PASS then iterateVcf contig filterStatus rest
      else
        let out := iterateVcf contig filterStatus rest
        (v :: out.1, out.2)

/-- Length of the first "line" of a byte string, including its
terminating newline when present: what `file.readline()` consumes. -/
def lineLen : List Char → Nat
  | [] => 0
  | c :: cs => if c = '\n' then 1 else 1 + lineLen cs

/-- Result of `file.seek(off); file.readline(); file.tell()`: the byte
offset just after the line containing `off` (equals `off` itself at end
of file, where `readline` returns the empty string). -/
def readlineEnd (file : List Char) (off : Nat) : Nat :=
  off + lineLen (file.drop off)

/-- The bytes `readline` returns when the file is positioned at `off`. -/
def lineAtFrom (file : List Char) (off : Nat) : List Char :=
  (file.drop off).take (lineLen (file.drop off))

/-- Loop of `VCFFile._search_for_pos` (lines 174-196 of dna.py) over the
byte range `[lower, upper)`.  The fuel argument only bounds the number of
iterations; the interval shrinks every iteration, so the fuel used by
`search_for_pos` is never exhausted.  The source's `if line is None`
branch is dead code (`readline` returns `b""` at EOF, never `None`) and
is omitted.  `none` models a parse exception escaping the search. -/
def searchLoop (contig file : List Char) (target : Nat) : Nat → Nat → Nat → Option Nat
  | 0, _, upper => some upper
  | fuel + 1, lower, upper =>
    if lower < upper then
      let mid := lower + (upper - lower) / 2
      let newPos := readlineEnd file mid
      if newPos = upper then some upper
      else
        match parseVcfLine contig (lineAtFrom file newPos) with
        | ParseRes.malformed => none
        | ParseRes.notContig => searchLoop contig file target fuel newPos upper
        | ParseRes.ok v =>
          if v.pos < target then searchLoop contig file target fuel newPos upper
          else searchLoop contig file target fuel lower newPos
    else some upper

/-- Embedding of `VCFFile._search_for_pos`: binary search for the byte
offset of the first record at or after `target`; the final `file.seek(upper)`
makes `upper` the result. -/
def search_for_pos (contig file : List Char) (target : Nat) : Option Nat :=
  searchLoop contig file target (file.length + 1) 0 file.length

/-- Reference linear scan (spec side, for claim C5): walk the file line
by line from the start and return the byte offset of the first line that
parses as a record of the contig with position at or after `target`, or
the file length when there is none.  The fuel argument makes the
recursion structural; `linScan` supplies enough for the whole file. -/
def linScanAux (contig : List Char) (target : Nat) : Nat → List Char → Nat
  | 0, _ => 0
  | fuel + 1, file =>
    if file = [] then 0
    else
      match parseVcfLine contig (file.take (lineLen file)) with
      | ParseRes.ok v =>
        if target ≤ v.pos then 0
        else lineLen file + linScanAux contig target fuel (file.drop (lineLen file))
      | _ => lineLen file + linScanAux contig target fuel (file.drop (lineLen file))

/-- Full linear scan over the whole file. -/
def linScan (contig : List Char) (target : Nat) (file : List Char) : Nat :=
  linScanAux contig target (file.length + 1) file

/-- Positions of the contig's parseable records, in file order (used to
state the sortedness precondition of claim C5). -/
def contigPositions (contig : List Char) : List (List Char) → List Nat
  | [] => []
  | line :: rest =>
    match parseVcfLine contig line with
    | ParseRes.ok v => v.pos :: contigPositions contig rest
    | _ => contigPositions contig rest

/-- Split a byte string into its lines, each keeping its trailing
newline (the way iterating a Python file object yields lines). -/
def splitIntoLines : List Char → List (List Char)
  | [] => []
  | c :: cs =>
    let r := splitIntoLines cs
    if c = '\n' then ['\n'] :: r
    else
      match r with
      | [] => [[c]]
      | l :: ls => (c :: l) :: ls

/-- Character loop of `iterate_ref` (lines 294-309 of dna.py) over the
already stripped characters read from the fasta file: `i` is the running
position counter (starts at `start_pos`), `len` the contig length from
the index.  A valid base character advances the counter and is emitted
with the new (1-based) position; `>` ends the sequence (next contig
header, premature end); any other character is logged and skipped
without advancing the counter. -/
def iterateRefChars : List Char → Nat → Nat → List (Nat × Base)
  | [], _, _ => []
  | c :: cs, i, len =>
    if len ≤ i then []
    else
      match base_to_enum c with
      | some b => (i + 1, b) :: iterateRefChars cs (i + 1) len
      | none => if c = '>' then [] else iterateRefChars cs i len

/-- Embedding of `iterate_ref`: seek to
`fai.start + start_pos // bapl * bypl + start_pos % bapl`, then run the
character loop over the stripped lines from that point (Python iterates
the file line by line and strips each line; the concatenation of the
stripped lines is what the inner loop sees).  Lean's `Nat` division by
zero is 0 where Python would raise ZeroDivisionError for `bapl = 0`;
index files always have positive `bapl`. -/
def iterate_ref (ref_file : List Char) (fai : FaiLine) (start_pos : Nat) : List (Nat × Base) :=
  let off := fai.start + start_pos / fai.bapl * fai.bypl + start_pos % fai.bapl
  iterateRefChars (((splitIntoLines (ref_file.drop off)).map pstrip).flatten) start_pos fai.len

/-- Stable descending sort by quality: `variants.sort(key=lambda v: -v.qual)`
(Python's sort is stable; insertion sort with this relation is stable). -/
def sortDescQual (l : List Variant) : List Variant :=
  l.insertionSort (fun x y => y.qual ≤ x.qual)

/-- Inner loop of `filter_variants` for more than two colocated calls
(lines 251-257 of dna.py), iterating the sorted list in reverse
(ascending quality).  The source increments `to_drop` after each drop
(`to_drop += 1`, line 255); the embedding reproduces that exactly. -/
def dropLoop : List Variant → Nat → List Variant → List Variant
  | [], _, acc => acc
  | v :: rest, toDrop, acc =>
    if 0 < toDrop ∧ v.vtype ≠ VariantType.SNP then dropLoop rest (toDrop + 1) acc
    else dropLoop rest toDrop (acc ++ [v])

/-- Embedding of `filter_variants` (the spec's `resolve()`): sort
descending by quality; with more than two calls run the drop loop over
the reversed list and keep `new_vs[:2]`; with exactly two calls not both
heterozygous `(0,1)`, keep the SNPs if any, else the single
highest-quality call.  `contig` and `i` are only used for logging in the
source and are kept for signature fidelity. -/
def filter_variants (variants : List Variant) (contig : List Char) (i : Nat) : List Variant :=
  let sorted := sortDescQual variants
  let afterDrop :=
    if 2 < sorted.length then (dropLoop sorted.reverse (sorted.length - 2) []).take 2
    else sorted
  if afterDrop.length = 2 ∧ ∃ v ∈ afterDrop, v.gt ≠ [0, 1] then
    if ∃ v ∈ afterDrop, v.vtype = VariantType.SNP then
      afterDrop.filter (fun v => decide (v.vtype = VariantType.SNP))
    else afterDrop.take 1
  else afterDrop

/-- Embedding of `itertools.zip_longest(s1, s2, fillvalue=B.X)` for two
sequences. -/
def zipLongest : List Base → List Base → List (Base × Base)
  | [], ys => ys.map (fun y => (Base.X, y))
  | x :: xs, [] => (x, Base.X) :: zipLongest xs []
  | x :: xs, y :: ys => (x, y) :: zipLongest xs ys

/-- Genotype normalization for single-copy chromosomes (lines 348-350 of
dna.py): a length-1 genotype becomes the homozygous pair. -/
def normGt : List Nat → List Nat
  | [g] => [g, g]
  | l => l

/-- The `while next_variant.pos < i + len(variant.ref)` loop (lines
369-370 of dna.py) that discards variant calls covered by a multi-base
event.  `next(vcf_iter, None)` yields `None` when the stream is
exhausted, and the next evaluation of the loop condition then raises
`AttributeError` on `None.pos`; that crash is modelled by `none`. -/
def skipCovered (bound : Nat) : Variant → List Variant → Option (Variant × List Variant)
  | nv, [] => if nv.pos < bound then none else some (nv, [])
  | nv, v :: vs => if nv.pos < bound then skipCovered bound v vs else some (nv, v :: vs)

/-- Main loop of `get_consensus_sequence` (lines 321-374 of dna.py) over
the reference stream, with the variant stream split into the Python
variable `next_variant` (an `Option Variant`) and the not-yet-pulled
rest of the iterator.  The result is the list of loci yielded, paired
with `true` when the loop terminated normally (reference exhausted) and
`false` when an uncaught exception ended the generator.  Crash points
reproduced from the source: the `IndexError` when `filter_variants`
returns no record (line 343), the `KeyError` on `gt_to_ref_status` for
an unknown genotype (lines 355/360), the `IndexError` on
`base_options[bi]` / `ref_alts[vi]` for an out-of-range allele index,
the `RuntimeError` when `next(reference)` (line 364) exhausts the
reference mid-skip, and the `AttributeError` in `skipCovered`.  The fuel
argument only bounds the number of loop iterations; each iteration
consumes at least one reference element, so the fuel supplied by
`get_consensus_sequence` is never exhausted. -/
def mergeLoop (contig : List Char) : Nat → List (Nat × Base) → List Variant → Option Variant → List Locus × Bool
  | 0, _, _, _ => ([], true)
  | _ + 1, [], _, _ => ([], true)
  | fuel + 1, (i, refBase) :: refRest, vrest, nvOpt =>
    match nvOpt with
    | none =>
      let out := mergeLoop contig fuel refRest vrest none
      (Locus.mk contig i (refBase, refBase) RefStatus.hom_ref :: out.1, out.2)
    | some nv =>
      if nv.pos = i then
        let colocated := vrest.takeWhile (fun v => decide (v.pos = i))
        let afterCol := vrest.dropWhile (fun v => decide (v.pos = i))
        -- `for next_variant in vcf_iter` leaves the Python variable at its
        -- previous value (the last collected record) when the iterator is
        -- already exhausted, hence the `getLastD` in the second case.
        let nv2 :=
          match afterCol with
          | v :: _ => v
          | [] => (nv :: colocated).getLastD nv
        let vrest2 := afterCol.tail
        let variants := filter_variants (nv :: colocated) contig i
        match variants.filter (fun v => decide (v.vtype = VariantType.SNP)) ++ variants with
        | [] => ([], false)
        | variant0 :: _ =>
          let variant := Variant.mk variant0.contig variant0.pos variant0.vtype variant0.ref
            variant0.alts variant0.qual variant0.filter variant0.info (normGt variant0.gt)
            variant0.pl
          if variant.vtype = VariantType.SNP then
            match variant.gt with
            | [a, b] =>
              let base_options := variant.ref ++ variant.alts.flatten
              match base_options[a]?, base_options[b]?, gt_to_ref_status variant.gt with
              | some b1, some b2, some rs =>
                let out := mergeLoop contig fuel refRest vrest2 (some nv2)
                (Locus.mk contig i (b1, b2) rs :: out.1, out.2)
              | _, _, _ => ([], false)
            | _ => ([], false)
          else
            match variant.gt with
            | [a, b] =>
              let ref_alts := variant.ref :: variant.alts
              match ref_alts[a]?, ref_alts[b]? with
              | some s1, some s2 =>
                let lociHere :=
                  match zipLongest s1 s2, gt_to_ref_status variant.gt with
                  | [], _ => some []
                  | pairs, some rs => some (pairs.map (fun p => Locus.mk contig i p rs))
                  | _ :: _, none => none
                match lociHere with
                | none => ([], false)
                | some loci =>
                  if variant.ref.length - 1 ≤ refRest.length then
                    match skipCovered (i + variant.ref.length) nv2 vrest2 with
                    | none => (loci, false)
                    | some (nv3, rest3) =>
                      let out := mergeLoop contig fuel (refRest.drop (variant.ref.length - 1)) rest3 (some nv3)
                      (loci ++ out.1, out.2)
                  else (loci, false)
              | _, _ => ([], false)
            | _ => ([], false)
      else
        let out := mergeLoop contig fuel refRest vrest (some nv)
        (Locus.mk contig i (refBase, refBase) RefStatus.hom_ref :: out.1, out.2)

/-- Embedding of `get_consensus_sequence`, taking the two underlying
streams as lists: the parsed, filtered variant records the VCF iterator
would yield from the start position onward, and the (position, base)
pairs from `iterate_ref`.  `next_variant = next(vcf_iter)` at line 317
has no default, so an empty variant stream raises `StopIteration` inside
the generator, which PEP 479 turns into a `RuntimeError`: the pass
aborts before emitting anything, modelled by `([], false)`. -/
def get_consensus_sequence (contig : List Char) (vcf : List Variant) (reference : List (Nat × Base)) : List Locus × Bool :=
  match vcf with
  | [] => ([], false)
  | v :: vs => mergeLoop contig (reference.length + 1) reference vs (some v)

/-- One whole consensus pass from the raw file contents, composing the
binary search, the forward VCF scan and the reference reader exactly as
`get_consensus_sequence` wires them (contig taken from the fai line,
`filter_status=True`).  The VCF scan is evaluated eagerly here whereas
Python pulls it lazily, so a parse crash late in the VCF file sets the
completed-flag even if the merge loop would have stopped earlier; only
determinism (claim C9) is stated about this composition. -/
def consensus_pass (vcfFile refFile : List Char) (fai : FaiLine) (startPos : Nat) : List Locus × Bool :=
  match search_for_pos fai.contig vcfFile startPos with
  | none => ([], false)
  | some off =>
    let scanned := iterateVcf fai.contig true (splitIntoLines (vcfFile.drop off))
    let merged := get_consensus_sequence fai.contig scanned.1 (iterate_ref refFile fai startPos)
    (merged.1, scanned.2 && merged.2)

/-- Predicate stating that `s` is the byte offset of the start of a line
of `file` (0, or the offset just past some earlier line), or the file
length when the last line ends exactly at end of file.  Stated
recursively along the same line decomposition that `linScanAux` walks. -/
def LineStart (file : List Char) (s : Nat) : Prop :=
  if h : file = [] then s = 0
  else s = 0 ∨ (lineLen file ≤ s ∧ LineStart (file.drop (lineLen file)) (s - lineLen file))
termination_by file.length
decreasing_by
  simp only [List.length_drop]
  have hpos : 0 < lineLen file := by
    cases file with
    | nil => exact absurd rfl h
    | cons c cs => simp only [lineLen]; split <;> omega
  have hlen : 0 < file.length := by
    cases file with
    | nil => exact absurd rfl h
    | cons c cs => simp
  omega

/-! Concrete inputs used by the per-claim theorems below. -/

/-- The contig name `chr1` as a byte string. -/
def chr1s : List Char := "chr1".toList

/-- A VCF file holding a single sorted, well-formed record of chr1 at
position 10 (length 30 bytes). -/
def c5file : List Char := "chr1\t10\t.\tA\tG\t50\tPASS\ti\t0/1:x\n".toList

/-- A colocated non-SNP (deletion) call of quality `q` at chr1:7. -/
def dV (q : Nat) : Variant :=
  Variant.mk chr1s 7 VariantType.DEL [Base.A, Base.C] [[Base.A]] q PASS [] [1, 1] []

/-- A colocated SNP call of quality `q` at chr1:7, genotype 0/1. -/
def sV (q : Nat) : Variant :=
  Variant.mk chr1s 7 VariantType.SNP [Base.A] [[Base.G]] q PASS [] [0, 1] []

/-- A colocated heterozygous (0/1) deletion call of quality `q` at
chr1:7 (genotype 0/1 keeps the resolver's two-record branch out of the
picture, so only the drop loop determines the result). -/
def dH (q : Nat) : Variant :=
  Variant.mk chr1s 7 VariantType.DEL [Base.A, Base.C] [[Base.A]] q PASS [] [0, 1] []

/-- The deletion of the spec scenario: chr1:10, ref ACGT, alt A,
genotype 1/1. -/
def vDel : Variant :=
  Variant.mk chr1s 10 VariantType.DEL [Base.A, Base.C, Base.G, Base.T] [[Base.A]] 60 PASS [] [1, 1] []

/-- A later SNP at chr1:20, present so that the variant stream is not
exhausted while the deletion's covered span is skipped. -/
def w20 : Variant :=
  Variant.mk chr1s 20 VariantType.SNP [Base.A] [[Base.G]] 50 PASS [] [0, 1] []

/-- Reference stream around the deletion: positions 10..15. -/
def refC6 : List (Nat × Base) :=
  [(10, Base.A), (11, Base.C), (12, Base.G), (13, Base.T), (14, Base.A), (15, Base.A)]

/-- A SNP at chr1:1 whose genotype pair 0/2 is outside the
`gt_to_ref_status` mapping (two alternates, so the allele indices
themselves are in range). -/
def vBad : Variant :=
  Variant.mk chr1s 1 VariantType.SNP [Base.A] [[Base.G], [Base.T]] 50 PASS [] [0, 2] []

/-- Index line of the spec scenario: `chr1  1000  0  80  81`. -/
def fai1000 : FaiLine := FaiLine.mk chr1s 1000 0 80 81

/-- Reference file of 1000 `A` characters laid out 80 bases per line. -/
def refFileA1000 : List Char :=
  (List.replicate 12 (List.replicate 80 'A' ++ ['\n'])).flatten ++ List.replicate 40 'A'

/-- Small index line for reference-reader witnesses. -/
def fai4 : FaiLine := FaiLine.mk chr1s 4 0 80 81

/-- A record line of contig chr10 (which `startswith("chr1")` accepts). -/
def c8badline : List Char := "chr10\t7\t.\tA\tG\t50\tPASS\ti\t0/1:x".toList

/-- A well-formed PASS record line of chr1 at position 500. -/
def c8goodline : List Char := "chr1\t500\t.\tA\tG\t50\tPASS\ti\t0/1:x".toList

/-- The record `c8goodline` parses to. -/
def v8 : Variant :=
  Variant.mk chr1s 500 VariantType.SNP [Base.A] [[Base.G]] 50 PASS "i".toList [0, 1] "x".toList

/-- Executable ascending-sortedness check for a position list (used to
state the sortedness precondition of claim C5). -/
def ascending : List Nat → Bool
  | [] => true
  | [_] => true
  | a :: b :: r => a ≤ b && ascending (b :: r)

/-- Another SNP with an unmapped genotype pair (2/0), at chr1:3, used to
instantiate the amended claim C4. -/
def vBad2 : Variant :=
  Variant.mk chr1s 3 VariantType.SNP [Base.A] [[Base.G], [Base.T]] 50 PASS [] [2, 0] []

/-! Helper lemmas. -/

theorem iterateRefChars_nil_of_le (t : List Char) (i len : Nat) (h : len ≤ i) :
    iterateRefChars t i len = [] := by
  cases t with
  | nil => rfl
  | cons c cs => simp [iterateRefChars, h]

theorem iterateRefChars_get? : ∀ (s : List Char) (i len n : Nat) (pb : Nat × Base),
    (iterateRefChars s i len)[n]? = some pb → pb.1 = i + n + 1 := by
  intro s
  induction s with
  | nil => intro i len n pb h; simp [iterateRefChars] at h
  | cons c cs ih =>
    intro i len n pb h
    by_cases hil : len ≤ i
    · simp [iterateRefChars, hil] at h
    · rcases hb : base_to_enum c with _ | b
      · by_cases hgt : c = '>'
        · simp [iterateRefChars, if_neg hil, hb, if_pos hgt] at h
        · simp only [iterateRefChars, if_neg hil, hb, if_neg hgt] at h
          exact ih i len n pb h
      · simp only [iterateRefChars, if_neg hil, hb] at h
        cases n with
        | zero =>
          simp only [List.getElem?_cons_zero, Option.some.injEq] at h
          subst h
          rfl
        | succ m =>
          simp only [List.getElem?_cons_succ] at h
          have := ih (i + 1) len m pb h
          omega

theorem iterateRefChars_mem_gt : ∀ (s : List Char) (i len : Nat) (pb : Nat × Base),
    pb ∈ iterateRefChars s i len → i < pb.1 := by
  intro s
  induction s with
  | nil => intro i len pb h; simp [iterateRefChars] at h
  | cons c cs ih =>
    intro i len pb h
    by_cases hil : len ≤ i
    · simp [iterateRefChars, hil] at h
    · rcases hb : base_to_enum c with _ | b
      · by_cases hgt : c = '>'
        · simp [iterateRefChars, if_neg hil, hb, if_pos hgt] at h
        · simp only [iterateRefChars, if_neg hil, hb, if_neg hgt] at h
          exact ih i len pb h
      · simp only [iterateRefChars, if_neg hil, hb, List.mem_cons] at h
        rcases h with h | h
        · subst h; simp
        · have := ih (i + 1) len pb h
          omega

theorem iterateRefChars_mem_le : ∀ (s : List Char) (i len : Nat) (pb : Nat × Base),
    pb ∈ iterateRefChars s i len → pb.1 ≤ len := by
  intro s
  induction s with
  | nil => intro i len pb h; simp [iterateRefChars] at h
  | cons c cs ih =>
    intro i len pb h
    by_cases hil : len ≤ i
    · simp [iterateRefChars, hil] at h
    · rcases hb : base_to_enum c with _ | b
      · by_cases hgt : c = '>'
        · simp [iterateRefChars, if_neg hil, hb, if_pos hgt] at h
        · simp only [iterateRefChars, if_neg hil, hb, if_neg hgt] at h
          exact ih i len pb h
      · simp only [iterateRefChars, if_neg hil, hb, List.mem_cons] at h
        rcases h with h | h
        · subst h; simpa using Nat.lt_of_not_le hil
        · exact ih (i + 1) len pb h

theorem iterateRefChars_pairwise : ∀ (s : List Char) (i len : Nat),
    ((iterateRefChars s i len).map Prod.fst).Pairwise (· < ·) := by
  intro s
  induction s with
  | nil => intro i len; simp [iterateRefChars]
  | cons c cs ih =>
    intro i len
    by_cases hil : len ≤ i
    · simp [iterateRefChars, hil]
    · rcases hb : base_to_enum c with _ | b
      · by_cases hgt : c = '>'
        · simp [iterateRefChars, if_neg hil, hb, if_pos hgt]
        · simp only [iterateRefChars, if_neg hil, hb, if_neg hgt]
          exact ih i len
      · simp only [iterateRefChars, if_neg hil, hb, List.map_cons, List.pairwise_cons]
        refine ⟨?_, ih (i + 1) len⟩
        intro p hp
        rcases List.mem_map.1 hp with ⟨pb, hpb, rfl⟩
        exact iterateRefChars_mem_gt cs (i + 1) len pb hpb

theorem iterateRefChars_append : ∀ (s : List Char) (i len : Nat),
    (∀ c ∈ s, (base_to_enum c).isSome) → len ≤ i + s.length →
    ∀ extra, iterateRefChars (s ++ extra) i len = iterateRefChars s i len := by
  intro s
  induction s with
  | nil =>
    intro i len _ hlen extra
    simp only [List.nil_append]
    exact iterateRefChars_nil_of_le extra i len (by simpa using hlen)
  | cons c cs ih =>
    intro i len hvalid hlen extra
    by_cases hil : len ≤ i
    · rw [iterateRefChars_nil_of_le _ _ _ hil, iterateRefChars_nil_of_le _ _ _ hil]
    · have hc : (base_to_enum c).isSome := hvalid c (List.mem_cons_self c cs)
      rcases hbv : base_to_enum c with _ | b
      · rw [hbv] at hc; simp at hc
      · simp only [List.cons_append, iterateRefChars, if_neg hil, hbv]
        have := ih (i + 1) len (fun x hx => hvalid x (List.mem_cons_of_mem c hx))
          (by simp at hlen ⊢; omega) extra
        rw [List.append_eq, this]

theorem startsWithChars_iff : ∀ (p l : List Char), startsWithChars p l = true ↔ ∃ t, l = p ++ t := by
  intro p
  induction p with
  | nil => intro l; simp [startsWithChars]
  | cons a ps ih =>
    intro l
    cases l with
    | nil =>
      simp only [startsWithChars, List.cons_append]
      constructor
      · intro h; exact absurd h (by simp)
      · rintro ⟨t, ht⟩; exact absurd ht (by simp)
    | cons b bs =>
      simp only [startsWithChars, Bool.and_eq_true, decide_eq_true_eq, List.cons_append,
        List.cons.injEq]
      constructor
      · rintro ⟨hab, h⟩
        rcases (ih bs).1 h with ⟨t, rfl⟩
        exact ⟨t, hab.symm, rfl⟩
      · rintro ⟨t, hb, hbs⟩
        exact ⟨hb.symm, (ih bs).2 ⟨t, hbs⟩⟩

theorem dropWhile_append_stop (pred : Char → Bool) (xs : List Char) (y : Char) (ys : List Char)
    (hy : pred y = false) :
    List.dropWhile pred (xs ++ y :: ys) = List.dropWhile pred xs ++ y :: ys := by
  induction xs with
  | nil => simp [List.dropWhile_cons, hy]
  | cons x xs ih =>
    by_cases hx : pred x
    · simp [List.dropWhile_cons, hx, ih]
    · simp [List.dropWhile_cons, hx]

theorem pstrip_keep (p l : List Char) (hp : ∀ c ∈ p, isPySpace c = false)
    (h : startsWithChars p l = true) : startsWithChars p (pstrip l) = true := by
  cases p with
  | nil => rfl
  | cons a ps =>
    rcases (startsWithChars_iff (a :: ps) l).1 h with ⟨t, rfl⟩
    have ha : isPySpace a = false := hp a (List.mem_cons_self _ _)
    rw [pstrip]
    rw [List.cons_append, List.dropWhile_cons]
    simp only [ha, Bool.false_eq_true, if_false]
    rw [← List.cons_append]
    obtain ⟨c, cs, hrev⟩ : ∃ c cs, (a :: ps).reverse = c :: cs := by
      cases hr : (a :: ps).reverse with
      | nil => exact absurd hr (by simp)
      | cons c cs => exact ⟨c, cs, rfl⟩
    have hc : isPySpace c = false := by
      apply hp
      have : c ∈ (a :: ps).reverse := by rw [hrev]; exact List.mem_cons_self _ _
      exact List.mem_reverse.mp this
    rw [List.reverse_append, hrev, dropWhile_append_stop isPySpace _ c cs hc,
      List.reverse_append]
    have hcc : (c :: cs).reverse = a :: ps := by rw [← hrev, List.reverse_reverse]
    rw [hcc]
    exact (startsWithChars_iff _ _).2 ⟨_, rfl⟩

theorem splitOnChar_ne_nil (sep : Char) : ∀ l, splitOnChar sep l ≠ [] := by
  intro l
  cases l with
  | nil => simp [splitOnChar]
  | cons c cs =>
    rw [splitOnChar]
    cases splitOnChar sep cs with
    | nil => simp
    | cons h t => by_cases hc : c = sep <;> simp [hc]

theorem splitOnChar_headD (sep : Char) : ∀ l : List Char,
    (splitOnChar sep l).headD [] = l.takeWhile (fun c => !decide (c = sep)) := by
  intro l
  induction l with
  | nil => rfl
  | cons c cs ih =>
    rw [splitOnChar]
    cases hr : splitOnChar sep cs with
    | nil => exact absurd hr (splitOnChar_ne_nil sep cs)
    | cons h t =>
      by_cases hc : c = sep
      · simp [hc, List.takeWhile_cons]
      · have ih2 := ih
        rw [hr] at ih2
        simp only [List.headD_cons] at ih2
        simp [hc, List.takeWhile_cons, ← ih2]

theorem startsWith_takeWhile (sep : Char) : ∀ (p l : List Char), (∀ c ∈ p, c ≠ sep) →
    startsWithChars p l = true →
    startsWithChars p (l.takeWhile (fun c => !decide (c = sep))) = true := by
  intro p
  induction p with
  | nil => intro l _ _; rfl
  | cons a ps ih =>
    intro l hp h
    cases l with
    | nil => simp [startsWithChars] at h
    | cons b bs =>
      simp only [startsWithChars, Bool.and_eq_true, decide_eq_true_eq] at h
      obtain ⟨hab, hrest⟩ := h
      have hb : b ≠ sep := by rw [← hab]; exact hp a (List.mem_cons_self _ _)
      rw [List.takeWhile_cons]
      have hcond : (!decide (b = sep)) = true := by simp [hb]
      rw [hcond, if_pos rfl]
      simp only [startsWithChars, Bool.and_eq_true, decide_eq_true_eq]
      exact ⟨hab, ih bs (fun c hc => hp c (List.mem_cons_of_mem _ hc)) hrest⟩

end Dna

namespace Dna

theorem parseFields_contig : ∀ (cols : List (List Char)) (v : Variant),
    parseFields cols = some v → v.contig = cols.headD [] := by
  intro cols v h
  simp only [parseFields, Option.bind_eq_some] at h
  obtain ⟨c1, h1, pos, h2, c3, h3, ref, h4, c4, h5, alts, h6, c5, h7, qual, h8, c6, h9,
    c7, h10, lastCol, h11, hrest⟩ := h
  split at hrest
  · simp only [Option.bind_eq_some] at hrest
    obtain ⟨gt, h12, hv⟩ := hrest
    simp only [Option.some.injEq] at hv
    subst hv
    rfl
  · exact absurd hrest (by simp)

theorem lineLen_le_length : ∀ l : List Char, lineLen l ≤ l.length := by
  intro l
  induction l with
  | nil => simp [lineLen]
  | cons c cs ih =>
    rw [lineLen]
    split
    · simp
    · simp only [List.length_cons]
      omega

theorem lineLen_pos : ∀ l : List Char, l ≠ [] → 0 < lineLen l := by
  intro l h
  cases l with
  | nil => exact absurd rfl h
  | cons c cs => rw [lineLen]; split <;> omega

theorem lineLen_drop : ∀ (l : List Char) (k : Nat), k < lineLen l →
    lineLen (l.drop k) = lineLen l - k := by
  intro l
  induction l with
  | nil => intro k h; simp [lineLen] at h
  | cons c cs ih =>
    intro k h
    cases k with
    | zero => simp
    | succ m =>
      by_cases hc : c = '\n'
      · rw [lineLen, if_pos hc] at h
        omega
      · rw [lineLen, if_neg hc] at h ⊢
        rw [List.drop_succ_cons, ih m (by omega)]
        omega



theorem readlineEnd_le_length (file : List Char) (off : Nat) (h : off ≤ file.length) :
    readlineEnd file off ≤ file.length := by
  have h1 := lineLen_le_length (file.drop off)
  rw [List.length_drop] at h1
  rw [readlineEnd]
  omega

theorem readlineEnd_eq_lineLen (file : List Char) (mid : Nat) (h : mid < lineLen file) :
    readlineEnd file mid = lineLen file := by
  rw [readlineEnd, lineLen_drop file mid h]
  omega

theorem readlineEnd_decomp (file : List Char) (mid : Nat) (h : lineLen file ≤ mid) :
    readlineEnd file mid =
      lineLen file + readlineEnd (file.drop (lineLen file)) (mid - lineLen file) := by
  rw [readlineEnd, readlineEnd]
  have hdd : (file.drop (lineLen file)).drop (mid - lineLen file) = file.drop mid := by
    rw [List.drop_drop]
    congr 1
    omega
  rw [hdd]
  omega

theorem LineStart_zero (file : List Char) : LineStart file 0 := by
  rw [LineStart]
  split
  · rfl
  · exact Or.inl rfl

theorem LineStart_step (file : List Char) (s : Nat) (hne : file ≠ [])
    (hls : lineLen file ≤ s) (h : LineStart (file.drop (lineLen file)) (s - lineLen file)) :
    LineStart file s := by
  rw [LineStart, dif_neg hne]
  exact Or.inr ⟨hls, h⟩

theorem readlineEnd_lineStart (file : List Char) (mid : Nat) (h : mid < file.length) :
    LineStart file (readlineEnd file mid) := by
  have hne : file ≠ [] := by
    intro he
    rw [he] at h
    simp at h
  by_cases hm : mid < lineLen file
  · rw [readlineEnd_eq_lineLen file mid hm]
    refine LineStart_step file (lineLen file) hne le_rfl ?_
    have hz : lineLen file - lineLen file = 0 := by omega
    rw [hz]
    exact LineStart_zero _
  · push_neg at hm
    have hlt : mid - lineLen file < (file.drop (lineLen file)).length := by
      rw [List.length_drop]
      have := lineLen_pos file hne
      omega
    have hrec := readlineEnd_lineStart (file.drop (lineLen file)) (mid - lineLen file) hlt
    rw [readlineEnd_decomp file mid hm]
    refine LineStart_step file _ hne (by omega) ?_
    have hz : lineLen file + readlineEnd (file.drop (lineLen file)) (mid - lineLen file)
        - lineLen file = readlineEnd (file.drop (lineLen file)) (mid - lineLen file) := by omega
    rw [hz]
    exact hrec
termination_by file.length
decreasing_by
  rw [List.length_drop]
  have := lineLen_pos file hne
  omega

theorem lineAtFrom_drop (file : List Char) (s : Nat) (h : lineLen file ≤ s) :
    lineAtFrom file s = lineAtFrom (file.drop (lineLen file)) (s - lineLen file) := by
  rw [lineAtFrom, lineAtFrom]
  have hdd : (file.drop (lineLen file)).drop (s - lineLen file) = file.drop s := by
    rw [List.drop_drop]
    congr 1
    omega
  rw [hdd]

theorem linScanAux_le_length (contig : List Char) (target : Nat) :
    ∀ (fuel : Nat) (file : List Char), linScanAux contig target fuel file ≤ file.length := by
  intro fuel
  induction fuel with
  | zero => intro file; simp [linScanAux]
  | succ n ih =>
    intro file
    rw [linScanAux]
    split
    · simp
    · rename_i hne
      have h1 := lineLen_le_length file
      have h2 := ih (file.drop (lineLen file))
      rw [List.length_drop] at h2
      have h3 := lineLen_pos file hne
      split
      · split
        · omega
        · omega
      · omega



theorem linScanAux_le_of_lineStart (contig : List Char) (target : Nat) :
    ∀ (fuel : Nat) (file : List Char) (s : Nat) (v : Variant),
      LineStart file s → parseVcfLine contig (lineAtFrom file s) = ParseRes.ok v →
      target ≤ v.pos → linScanAux contig target fuel file ≤ s := by
  intro fuel
  induction fuel with
  | zero => intro file s v _ _ _; simp [linScanAux]
  | succ n ih =>
    intro file s v hls hp ht
    by_cases hne : file = []
    · simp [linScanAux, hne]
    · rw [LineStart, dif_neg hne] at hls
      rcases hls with rfl | ⟨hLs, hls2⟩
      · have hline : lineAtFrom file 0 = file.take (lineLen file) := by
          rw [lineAtFrom]
          simp
        rw [hline] at hp
        rw [linScanAux, if_neg hne, hp]
        simp [ht]
      · have hline : lineAtFrom file s = lineAtFrom (file.drop (lineLen file)) (s - lineLen file) :=
          lineAtFrom_drop file s hLs
        rw [hline] at hp
        have hrec := ih (file.drop (lineLen file)) (s - lineLen file) v hls2 hp ht
        rw [linScanAux, if_neg hne]
        rcases hp0 : parseVcfLine contig (file.take (lineLen file)) with _ | _ | w <;>
          simp only [hp0]
        · omega
        · omega
        · split
          · omega
          · omega



theorem searchLoop_ge (contig file : List Char) (target : Nat) :
    ∀ (fuel lower upper r : Nat),
      linScan contig target file ≤ upper → upper ≤ file.length →
      searchLoop contig file target fuel lower upper = some r →
      linScan contig target file ≤ r := by
  intro fuel
  induction fuel with
  | zero =>
    intro lower upper r hA hU hs
    rw [searchLoop] at hs
    simp only [Option.some.injEq] at hs
    omega
  | succ n ih =>
    intro lower upper r hA hU hs
    rw [searchLoop] at hs
    by_cases hlu : lower < upper
    · rw [if_pos hlu] at hs
      dsimp only at hs
      by_cases hnu : readlineEnd file (lower + (upper - lower) / 2) = upper
      · rw [if_pos hnu] at hs
        simp only [Option.some.injEq] at hs
        omega
      · rw [if_neg hnu] at hs
        have hmid : lower + (upper - lower) / 2 < file.length := by
          have := Nat.div_le_self (upper - lower) 2
          omega
        rcases hp : parseVcfLine contig
            (lineAtFrom file (readlineEnd file (lower + (upper - lower) / 2))) with _ | _ | v <;>
          simp only [hp] at hs
        · exact ih _ _ r hA hU hs
        · simp at hs
        · by_cases hvp : v.pos < target
          · rw [if_pos hvp] at hs
            exact ih _ _ r hA hU hs
          · rw [if_neg hvp] at hs
            have hA2 : linScan contig target file ≤
                readlineEnd file (lower + (upper - lower) / 2) :=
              linScanAux_le_of_lineStart contig target _ file _ v
                (readlineEnd_lineStart file _ hmid) hp (by omega)
            have hU2 : readlineEnd file (lower + (upper - lower) / 2) ≤ file.length :=
              readlineEnd_le_length file _ (by omega)
            exact ih _ _ r hA2 hU2 hs
    · rw [if_neg hlu] at hs
      simp only [Option.some.injEq] at hs
      omega

/-! Per-claim theorems. -/

/-- C1: the spec scenario says a pass over 1000 reference `A`s with no
variant records for the contig yields 1000 homozygous-reference loci and
completes normally.  The code instead calls `next(vcf_iter)` without a
default (dna.py line 317), so the empty variant stream raises
StopIteration inside the generator (a RuntimeError under PEP 479) and
the pass aborts before emitting a single locus: the model returns no
loci and a `false` completed-flag. -/
theorem c1_empty_variant_stream_aborts :
    consensus_pass [] refFileA1000 fai1000 0 = ([], false) := rfl

/-- The other half of the spec's resolver property does hold: the
resolver never returns more than 2 records. -/
theorem filter_variants_length_le_two (variants : List Variant) (c : List Char) (i : Nat) :
    (filter_variants variants c i).length ≤ 2 := by
  rw [filter_variants]
  by_cases h1 : 2 < (sortDescQual variants).length
  · rw [if_pos h1]
    split
    · split
      · have := List.length_filter_le (fun v => decide (v.vtype = VariantType.SNP))
          ((dropLoop (sortDescQual variants).reverse ((sortDescQual variants).length - 2) []).take 2)
        have h2 := List.length_take_le 2
          (dropLoop (sortDescQual variants).reverse ((sortDescQual variants).length - 2) [])
        omega
      · simp
    · exact List.length_take_le 2 _
  · rw [if_neg h1]
    push_neg at h1
    split
    · split
      · have := List.length_filter_le (fun v => decide (v.vtype = VariantType.SNP))
          (sortDescQual variants)
        omega
      · simp
    · exact h1

/-- C2: the claim says the resolver returns at least 1 record for any
non-empty input.  Because `to_drop += 1` (dna.py line 255) increments
instead of decrementing, three colocated non-SNP calls are all dropped
and the resolver returns the empty list. -/
theorem c2_resolver_returns_nothing :
    filter_variants [dV 10, dV 20, dV 30] chr1s 7 = [] := by decide

/-- C3: the claim (and the code's own log messages and comments) says
lowest-quality non-SNPs are dropped only until two records remain, and
that an all-SNP pile keeps the two highest-quality SNPs.  The code
instead drops every non-SNP (the `to_drop += 1` slip) and `new_vs[:2]`
takes the reversed list's first two, i.e. the two lowest-quality SNPs:
three SNPs of quality 10/20/30 resolve to the 10 and 20 ones, and two
heterozygous deletions (10, 20) plus one SNP (30) resolve to the SNP
alone where stopping at two records would have kept the quality-20
deletion as well. -/
theorem c3_keeps_lowest_quality_drops_all_nonsnp :
    filter_variants [sV 10, sV 20, sV 30] chr1s 7 = [sV 10, sV 20] ∧
    filter_variants [dH 10, dH 20, sV 30] chr1s 7 = [sV 30] := by decide

/-- C4 counterexample: the claim says a genotype pair outside the
mapping is logged, the position skipped, and the pass continues.  At a
SNP with genotype 0/2 the dict lookup `gt_to_ref_status[variant.gt]`
(dna.py line 355) raises KeyError and the whole pass aborts: no locus is
emitted for position 1 nor for the untouched position 2. -/
theorem c4_counterexample :
    get_consensus_sequence chr1s [vBad] [(1, Base.A), (2, Base.A)] = ([], false) := by decide

/-- Resolving a single variant call returns it unchanged. -/
theorem filter_variants_single (v : Variant) (c : List Char) (i : Nat) :
    filter_variants [v] c i = [v] := by
  simp [filter_variants, sortDescQual, List.insertionSort, List.orderedInsert]

/-- C4 (amended): when the representative variant at a position is a SNP
whose genotype pair is outside the `gt_to_ref_status` mapping, the merge
engine raises an uncaught KeyError on the dict lookup and the whole pass
aborts: no locus is emitted at that position and no later reference
position is processed. -/
theorem c4_unsupported_genotype_aborts :
    ∀ (contig : List Char) (v : Variant) (i a b : Nat) (rb : Base) (refRest : List (Nat × Base)),
      v.pos = i → v.vtype = VariantType.SNP → v.gt = [a, b] →
      gt_to_ref_status [a, b] = none →
      get_consensus_sequence contig [v] ((i, rb) :: refRest) = ([], false) := by
  intro contig v i a b rb refRest hpos htype hgt hrs
  subst hpos
  simp only [get_consensus_sequence, List.length_cons]
  rw [mergeLoop]
  simp only [if_pos rfl, List.takeWhile_nil, List.dropWhile_nil, List.tail_nil,
    filter_variants_single]
  simp only [if_true]
  have hfil : List.filter (fun w => decide (w.vtype = VariantType.SNP)) [v] = [v] := by
    simp [List.filter, htype]
  rw [hfil]
  simp only [List.cons_append, List.nil_append]
  simp only [htype, hgt, normGt, if_true]
  rw [hrs]
  rcases h1 : (v.ref ++ v.alts.flatten)[a]? with _ | b1 <;>
    rcases h2 : (v.ref ++ v.alts.flatten)[b]? with _ | b2 <;> simp [h1, h2]

/-- Witness for the amended C4 at a concrete input: a SNP with genotype
2/0 at position 3 aborts the pass. -/
theorem c4_witness :
    get_consensus_sequence chr1s [vBad2] [(3, Base.A)] = ([], false) :=
  c4_unsupported_genotype_aborts chr1s vBad2 3 2 0 Base.A [] rfl rfl rfl (by decide)

/-- C5 counterexample: a sorted single-record file (record at position
10, target 5).  The linear scan answers byte offset 0, but the binary
search always discards the line its midpoint lands on, so it returns the
end of file (offset 30) and would skip the qualifying record. -/
theorem c5_counterexample :
    ascending (contigPositions chr1s (splitIntoLines c5file)) = true ∧
    search_for_pos chr1s c5file 5 ≠ some (linScan chr1s 5 c5file) := by decide

/-- C5 (amended): whenever the binary search completes without a parse
exception, the byte offset it returns is at or after the offset the
full linear scan finds for the first record whose position is at or
after the target (it can be strictly after, skipping qualifying
records, as the single-record file above shows). -/
theorem c5_search_at_or_after_linear_scan :
    ∀ (contig file : List Char) (target r : Nat),
      search_for_pos contig file target = some r →
      linScan contig target file ≤ r := by
  intro contig file target r h
  exact searchLoop_ge contig file target (file.length + 1) 0 file.length r
    (linScanAux_le_length contig target (file.length + 1) file) le_rfl h

/-- Witness for the amended C5 at the concrete single-record file: the
search returns offset 30 and the linear-scan offset is bounded by it. -/
theorem c5_witness : linScan chr1s 5 c5file ≤ 30 :=
  c5_search_at_or_after_linear_scan chr1s c5file 5 30 (by decide)

/-- C6: the claim says the deletion at position 10 (ref ACGT, alt A,
genotype 1/1) yields one locus at 10 and the next emitted locus is at
position 14.  When the deletion is the last record in the variant
stream, the skip loop `while next_variant.pos < i + len(variant.ref)`
(dna.py line 369) drains the iterator to `None` and then evaluates
`None.pos`, so the pass crashes right after the position-10 locus; with
a later record at position 20 present the claimed behaviour is observed
(loci at 10, 14, 15 and normal completion). -/
theorem c6_deletion_event :
    get_consensus_sequence chr1s [vDel] refC6 =
      ([Locus.mk chr1s 10 (Base.A, Base.A) RefStatus.hom_alt], false) ∧
    get_consensus_sequence chr1s [vDel, w20] refC6 =
      ([Locus.mk chr1s 10 (Base.A, Base.A) RefStatus.hom_alt,
        Locus.mk chr1s 14 (Base.A, Base.A) RefStatus.hom_ref,
        Locus.mk chr1s 15 (Base.A, Base.A) RefStatus.hom_ref], true) := by decide

/-- C7: for every reference file, layout and starting offset, the
emitted positions are strictly increasing and bounded by
`fai.len`, and the reader stops exactly at `fai.len`: once the character
stream supplies `fai.len - i` valid bases, appending further file
content changes nothing. -/
theorem c7_reference_reader_invariants :
    ∀ (ref_file : List Char) (fai : FaiLine) (start_pos : Nat),
      ((iterate_ref ref_file fai start_pos).map Prod.fst).Pairwise (· < ·) ∧
      (∀ pb ∈ iterate_ref ref_file fai start_pos, pb.1 ≤ fai.len) ∧
      (∀ (s extra : List Char) (i : Nat), (∀ c ∈ s, (base_to_enum c).isSome) →
        fai.len ≤ i + s.length →
        iterateRefChars (s ++ extra) i fai.len = iterateRefChars s i fai.len) := by
  intro ref_file fai start_pos
  refine ⟨?_, ?_, ?_⟩
  · exact iterateRefChars_pairwise _ _ _
  · intro pb h
    exact iterateRefChars_mem_le _ _ _ pb h
  · intro s extra i hv hl
    exact iterateRefChars_append s i fai.len hv hl extra

/-- Witness for C7 at a concrete input: position bound for an emitted
pair, and append-invariance once the 4 bases of `fai4.len` are
supplied. -/
theorem c7_witness :
    ((1, Base.A) : Nat × Base).1 ≤ fai4.len ∧
    iterateRefChars ("ACGT".toList ++ "GGG".toList) 0 fai4.len =
      iterateRefChars "ACGT".toList 0 fai4.len :=
  ⟨(c7_reference_reader_invariants "ACGT".toList fai4 0).2.1 (1, Base.A) (by decide),
   (c7_reference_reader_invariants "ACGT".toList fai4 0).2.2 "ACGT".toList "GGG".toList 0
     (by decide) (by decide)⟩


/-- C8 counterexample: with requested contig `chr1`, a record line of
contig `chr10` passes the `line.startswith(contig)` check, parses, and
is yielded with contig field `chr10` — a record that does not belong to
the requested contig. -/
theorem c8_counterexample :
    (iterateVcf chr1s true [c8badline]).1.map (fun v => v.contig) = ["chr10".toList] ∧
    "chr10".toList ≠ chr1s := by decide

/-- C8 (amended): for a whitespace-free requested contig name, every
record yielded by the variant iterator (with require-pass set) has the
requested contig as a prefix of its contig field — prefix, not
equality, because the source uses `line.startswith(self.contig)` — and
its filter status is PASS. -/
theorem c8_amended :
    ∀ (contig : List Char) (lines : List (List Char)) (v : Variant),
      (∀ c ∈ contig, isPySpace c = false) →
      v ∈ (iterateVcf contig true lines).1 →
      startsWithChars contig v.contig = true ∧ v.filter = PASS := by
  intro contig lines
  induction lines with
  | nil => intro v _ hm; simp [iterateVcf] at hm
  | cons line rest ih =>
    intro v hws hm
    rw [iterateVcf] at hm
    rcases hp : parseVcfLine contig line with _ | _ | v0
    · rw [hp] at hm
      exact ih v hws hm
    · rw [hp] at hm
      simp at hm
    · rw [hp] at hm
      dsimp only at hm
      by_cases hfil : v0.filter = PASS
      · rw [if_neg (by simp [hfil])] at hm
        simp only [List.mem_cons] at hm
        rcases hm with rfl | hm2
        · refine ⟨?_, hfil⟩
          rw [parseVcfLine] at hp
          cases hsw : startsWithChars contig line with
          | false => rw [hsw] at hp; simp at hp
          | true =>
            simp only [hsw, if_true] at hp
            rcases hpf : parseFields (splitOnChar '\t' (pstrip line)) with _ | w
            · rw [hpf] at hp; simp at hp
            · rw [hpf] at hp
              have hw : w = v := by
                have := hp
                simp only [ParseRes.ok.injEq] at this
                exact this
              subst hw
              have hcontig := parseFields_contig _ w hpf
              have hkeep := pstrip_keep contig line hws hsw
              have htab : ∀ c ∈ contig, c ≠ '\t' := by
                intro c hc hceq
                have := hws c hc
                rw [hceq] at this
                exact absurd this (by decide)
              have h2 := startsWith_takeWhile '\t' contig (pstrip line) htab hkeep
              rw [← splitOnChar_headD] at h2
              rw [hcontig]
              exact h2
        · exact ih v hws hm2
      · rw [if_pos ⟨rfl, hfil⟩] at hm
        exact ih v hws hm

/-- Witness for the amended C8 at a concrete input: the chr1 record
parsed from `c8goodline` carries the requested contig as a prefix and
PASS status. -/
theorem c8_witness :
    startsWithChars chr1s v8.contig = true ∧ v8.filter = PASS :=
  c8_amended chr1s [c8goodline] v8 (by decide) (by decide)

/-- C9: two consensus passes over the same files with the same
(contig, start position) are the same Locus sequence.  The embedding is
a pure function of the file bytes — faithfully so: the source opens its
own file handles per pass, seeks to absolute offsets, and uses no
randomness or shared mutable state, so its output stream is a function
of the same arguments. -/
theorem c9_two_passes_identical :
    ∀ (vcfFile refFile : List Char) (fai : FaiLine) (startPos : Nat),
      consensus_pass vcfFile refFile fai startPos = consensus_pass vcfFile refFile fai startPos :=
  fun _ _ _ _ => rfl

/-- C10: the n-th (0-based) emitted pair of the reference reader has
position `start_pos + n + 1` exactly — positions are gapless, and an
unrecognized character is skipped without consuming a position. -/
theorem c10_gapless_positions :
    ∀ (ref_file : List Char) (fai : FaiLine) (start_pos n : Nat) (pb : Nat × Base),
      (iterate_ref ref_file fai start_pos)[n]? = some pb → pb.1 = start_pos + n + 1 := by
  intro ref_file fai start_pos n pb h
  unfold iterate_ref at h
  exact iterateRefChars_get? _ start_pos fai.len n pb h

/-- Witness for C10: the pair at index 2 of a concrete read sits at
position 3. -/
theorem c10_witness : ((3, Base.G) : Nat × Base).1 = 0 + 2 + 1 :=
  c10_gapless_positions "ACGT".toList fai4 0 2 (3, Base.G) (by decide)

end Dna
